import Mathlib

/-!
Verification development for the Type-your-Doc document-classification
scripts.  The Python sources are shallowly embedded: the external model
providers (Gemini, Azure OpenAI) are oracles mapping the attempt index to
either a response text or an error message, wall-clock readings
(timestamps, response times) are omitted, and the mutable client object
becomes explicit state passing.  Each embedded definition is annotated
with the source file and function it is translated from.
-/

/-! ## Character-list utilities

Python string operations used by the scripts, modelled on List Char so
that every definition reduces in the kernel. -/

/-- Whether pat is a prefix of l (Python str.startswith). -/
def startsWithCh : List Char → List Char → Bool
  | [], _ => true
  | _ :: _, [] => false
  | p :: ps, c :: cs => p == c && startsWithCh ps cs

/-- Whether pat occurs as a contiguous substring of l (Python "pat in s"). -/
def containsCh (pat : List Char) : List Char → Bool
  | [] => startsWithCh pat []
  | c :: cs => startsWithCh pat (c :: cs) || containsCh pat cs

/-- Split l at the first occurrence of pat: returns (text before the
occurrence, text after the occurrence), or none when pat does not occur. -/
def findSplitCh (pat : List Char) : List Char → Option (List Char × List Char)
  | [] => if startsWithCh pat [] then some ([], []) else none
  | c :: cs =>
    if startsWithCh pat (c :: cs) then some ([], List.drop pat.length (c :: cs))
    else
      match findSplitCh pat cs with
      | some (pre, post) => some (c :: pre, post)
      | none => none

/-- Python str.strip: drop leading and trailing whitespace. -/
def stripCh (l : List Char) : List Char :=
  ((l.dropWhile Char.isWhitespace).reverse.dropWhile Char.isWhitespace).reverse

/-- Python s.split(sep)[1]: the text strictly between the first and the
second occurrence of sep (to the end when sep occurs exactly once);
none when sep does not occur at all (Python would raise IndexError). -/
def pySplitSegment1 (sep : List Char) (l : List Char) : Option (List Char) :=
  match findSplitCh sep l with
  | none => none
  | some (_, rest) =>
    match findSplitCh sep rest with
    | none => some rest
    | some (pre, _) => some pre

/-- Substring test on String values. -/
def containsStr (s pat : String) : Bool := containsCh pat.data s.data

/-! ## Chat message model

Embeds the message dictionaries passed to vision_chat_completion: a role
string plus either a plain text content or a list of multimodal items
(text blocks and image-url blocks).  This is the shape every call site in
the repository constructs. -/

inductive UserItem where
  | textItem (s : String)
  | imageItem (url : String)
deriving DecidableEq

inductive MsgContent where
  | str (s : String)
  | items (l : List UserItem)
deriving DecidableEq

structure ChatMessage where
  role : String
  content : MsgContent
deriving DecidableEq

/-- Content of the first message with the given role
(Python: next((m["content"] for m in messages if m["role"] == role), default)). -/
def firstContent (role : String) (msgs : List ChatMessage) : Option MsgContent :=
  (msgs.find? (fun m => m.role == role)).map (fun m => m.content)

/-- Text items of a multimodal user content, in order. -/
def extractTextParts (items : List UserItem) : List String :=
  items.filterMap fun it =>
    match it with
    | UserItem.textItem s => some s
    | UserItem.imageItem _ => none

/-- Image payloads of a multimodal user content: for each image item whose
url starts with "data:image/", the base64 part url.split(",")[1].
(When the url has no comma the Python code would raise IndexError before
entering the retry loop; no call site produces such a url, and the item is
dropped here.) -/
def extractImageParts (items : List UserItem) : List String :=
  items.filterMap fun it =>
    match it with
    | UserItem.textItem _ => none
    | UserItem.imageItem url =>
      if startsWithCh "data:image/".data url.data then
        (pySplitSegment1 [','] url.data).map String.mk
      else none

/-- The combined text prompt sent to Gemini:
f-string of the system prompt, a blank line, and the newline-join of the
user text parts.  (All call sites pass the system prompt as a string.)
From vision_doc_classifier_gemini file, vision_chat_completion. -/
def buildTextPrompt (msgs : List ChatMessage) : String :=
  let sys :=
    match firstContent "system" msgs with
    | some (MsgContent.str s) => s
    | _ => ""
  let userC :=
    match firstContent "user" msgs with
    | some c => c
    | none => MsgContent.items []
  let tparts :=
    match userC with
    | MsgContent.str s => [s]
    | MsgContent.items l => extractTextParts l
  sys ++ "\n\n" ++ String.intercalate "\n" tparts

/-- Image parts derived from the user message. -/
def imagePartsOf (msgs : List ChatMessage) : List String :=
  match firstContent "user" msgs with
  | some (MsgContent.items l) => extractImageParts l
  | _ => []

/-! ## Gemini client state and retry loop

From vision_doc_classifier_gemini file, class GeminiVisionWrapper.  The
same code appears verbatim as the synchronous vision_chat_completion of
the combined classifier file.  The provider is an oracle from the attempt
index (the value of the retries counter at that attempt) to either the
response text or the error message raised.  Timestamps and response
times, being wall-clock readings, are not modelled; every other field of
the usage record and of the returned dictionaries is. -/

structure UsageRecord where
  model : String
  input_tokens : ℕ
  output_tokens : ℕ
  total_tokens : ℕ
  cost : ℚ
  retries : ℕ
deriving DecidableEq

/-- The mutable accounting fields of the client instance:
total_cost, total_tokens dict and usage_history list. -/
structure ClientState where
  total_cost : ℚ
  tokens_input : ℕ
  tokens_output : ℕ
  tokens_total : ℕ
  usage_history : List UsageRecord
deriving DecidableEq

/-- Fresh client: totals zero, empty history (GeminiVisionWrapper init). -/
def geminiInitState : ClientState :=
  { total_cost := 0, tokens_input := 0, tokens_output := 0,
    tokens_total := 0, usage_history := [] }

/-- Gemini input price per 1K tokens: 0.000035 USD. -/
def geminiInputRate : ℚ := 35 / 1000000

/-- Gemini output price per 1K tokens: 0.000070 USD. -/
def geminiOutputRate : ℚ := 70 / 1000000

/-- Estimated input tokens: len(text_prompt) // 4 plus 1024 per image. -/
def estimatedInputTokens (textPrompt : String) (numImages : ℕ) : ℕ :=
  textPrompt.length / 4 + numImages * 1024

/-- Estimated output tokens: len(output_text) // 4. -/
def estimatedOutputTokens (outputText : String) : ℕ :=
  outputText.length / 4

/-- The formatted success response (choices/usage dict flattened). -/
structure OkResponse where
  content : String
  prompt_tokens : ℕ
  completion_tokens : ℕ
  total_tokens : ℕ
  cost : ℚ
  retries : ℕ
deriving DecidableEq

/-- Result of a completed vision_chat_completion call: either the
formatted response, or the error dictionary {error, cost, retries}. -/
inductive CallOutcome where
  | ok (r : OkResponse)
  | err (msg : String) (cost : ℚ) (retries : ℕ)
deriving DecidableEq

/-- Retries field of a call outcome. -/
def CallOutcome.retriesOf : CallOutcome → ℕ
  | CallOutcome.ok r => r.retries
  | CallOutcome.err _ _ n => n

/-- The successful-attempt body of the Gemini retry loop: estimate
tokens, compute cost, update the client totals, append one usage record,
and build the formatted response. -/
def geminiSuccess (modelName textPrompt : String) (numImages : ℕ)
    (outputText : String) (retries : ℕ) (st : ClientState) :
    ClientState × OkResponse :=
  let ein := estimatedInputTokens textPrompt numImages
  let eout := estimatedOutputTokens outputText
  let input_cost : ℚ := (ein : ℚ) / 1000 * geminiInputRate
  let output_cost : ℚ := (eout : ℚ) / 1000 * geminiOutputRate
  let total_cost : ℚ := input_cost + output_cost
  let record : UsageRecord :=
    { model := modelName, input_tokens := ein, output_tokens := eout,
      total_tokens := ein + eout, cost := total_cost, retries := retries }
  ({ total_cost := st.total_cost + total_cost,
     tokens_input := st.tokens_input + ein,
     tokens_output := st.tokens_output + eout,
     tokens_total := st.tokens_total + (ein + eout),
     usage_history := st.usage_history ++ [record] },
   { content := outputText, prompt_tokens := ein, completion_tokens := eout,
     total_tokens := ein + eout, cost := total_cost, retries := retries })

/-- The while-loop of GeminiVisionWrapper.vision_chat_completion.  The
fuel argument counts the iterations the guard retries <= max_retries
still allows (entry passes max_retries + 1); 0 fuel is the guard failing,
where Python would fall off the loop and return None.  The middle
component collects the time.sleep durations, a fixed 2 seconds before
every retry. -/
def geminiLoop (modelName textPrompt : String) (numImages : ℕ)
    (outcomes : ℕ → Except String String) (max_retries : ℕ) :
    ℕ → ℕ → ClientState → ClientState × List ℕ × Option CallOutcome
  | 0, _, st => (st, [], none)
  | fuel + 1, retries, st =>
    match outcomes retries with
    | Except.ok text =>
      let p := geminiSuccess modelName textPrompt numImages text retries st
      (p.1, [], some (CallOutcome.ok p.2))
    | Except.error e =>
      if retries = max_retries then
        (st, [], some (CallOutcome.err e 0 retries))
      else
        let r := geminiLoop modelName textPrompt numImages outcomes max_retries
          fuel (retries + 1) st
        (r.1, 2 :: r.2.1, r.2.2)

/-- GeminiVisionWrapper.vision_chat_completion (default max_retries = 2). -/
def gemini_vision_chat_completion (modelName : String) (msgs : List ChatMessage)
    (outcomes : ℕ → Except String String) (max_retries : ℕ) (st : ClientState) :
    ClientState × List ℕ × Option CallOutcome :=
  geminiLoop modelName (buildTextPrompt msgs) (imagePartsOf msgs).length
    outcomes max_retries (max_retries + 1) 0 st

/-! ## Azure OpenAI client retry loop

From vision_doc_classifier.py, class AzureOpenAIVisionWrapper.  The
provider oracle yields, per attempt index, either the parsed 200 response
(token counts from the usage object plus the content) or one of the three
failure modes handled by the source: a non-200 status, a timeout, or a
request exception.  The cost of a successful call is computed by the cost
tracker, passed here as the function costOf (its definition lives in
doc_classifier/azure_openai_cost_tracker.py, outside this repository
snapshot); no claim depends on its value. -/

structure AzureBody where
  content : String
  prompt_tokens : ℕ
  completion_tokens : ℕ
  total_tokens : ℕ
deriving DecidableEq

inductive AzureAttempt where
  | ok (body : AzureBody)
  | httpErr (code : ℕ) (text : String)
  | timedOut
  | reqErr (msg : String)
deriving DecidableEq

/-- The error message string built by each failure branch of the source. -/
def azureErrMsg (timeout : ℕ) : AzureAttempt → String
  | AzureAttempt.ok _ => ""
  | AzureAttempt.httpErr code text => "Error: " ++ toString code ++ " - " ++ text
  | AzureAttempt.timedOut => "Request timed out after " ++ toString timeout ++ " seconds"
  | AzureAttempt.reqErr msg => msg

/-- The successful branch (status 200) of the Azure loop: read the token
counts from the response, compute the cost, update the tracker totals,
append one usage record, and return the response annotated with cost and
retries. -/
def azureSuccess (deployment : String) (costOf : ℕ → ℕ → ℚ) (body : AzureBody)
    (retries : ℕ) (st : ClientState) : ClientState × OkResponse :=
  let cost := costOf body.prompt_tokens body.completion_tokens
  let record : UsageRecord :=
    { model := deployment, input_tokens := body.prompt_tokens,
      output_tokens := body.completion_tokens,
      total_tokens := body.total_tokens, cost := cost, retries := retries }
  ({ total_cost := st.total_cost + cost,
     tokens_input := st.tokens_input + body.prompt_tokens,
     tokens_output := st.tokens_output + body.completion_tokens,
     tokens_total := st.tokens_total + body.total_tokens,
     usage_history := st.usage_history ++ [record] },
   { content := body.content, prompt_tokens := body.prompt_tokens,
     completion_tokens := body.completion_tokens,
     total_tokens := body.total_tokens, cost := cost, retries := retries })

/-- The while-loop of AzureOpenAIVisionWrapper.vision_chat_completion.
All three failure branches behave identically: at retries == max_retries
return the error dictionary with cost 0, otherwise increment retries and
sleep 2 seconds.  Fuel as in geminiLoop. -/
def azureLoop (deployment : String) (timeout : ℕ) (costOf : ℕ → ℕ → ℚ)
    (attempts : ℕ → AzureAttempt) (max_retries : ℕ) :
    ℕ → ℕ → ClientState → ClientState × List ℕ × Option CallOutcome
  | 0, _, st => (st, [], none)
  | fuel + 1, retries, st =>
    match attempts retries with
    | AzureAttempt.ok body =>
      let p := azureSuccess deployment costOf body retries st
      (p.1, [], some (CallOutcome.ok p.2))
    | a =>
      if retries = max_retries then
        (st, [], some (CallOutcome.err (azureErrMsg timeout a) 0 retries))
      else
        let r := azureLoop deployment timeout costOf attempts max_retries
          fuel (retries + 1) st
        (r.1, 2 :: r.2.1, r.2.2)

/-- AzureOpenAIVisionWrapper.vision_chat_completion (default max_retries = 2). -/
def azure_vision_chat_completion (deployment : String) (timeout : ℕ)
    (costOf : ℕ → ℕ → ℚ) (attempts : ℕ → AzureAttempt) (max_retries : ℕ)
    (st : ClientState) : ClientState × List ℕ × Option CallOutcome :=
  azureLoop deployment timeout costOf attempts max_retries (max_retries + 1) 0 st

/-! ## Parallel Gemini client retry loop

From parallel_vision_doc_classifier_gemini file,
ParallelGeminiVisionWrapper.vision_chat_completion.  The success path is
the same accounting as the synchronous wrapper, but the failure path
differs: the handler increments retries and, once retries exceeds
max_retries, re-raises the exception.  The result type therefore marks a
raised exception with Except.error; none again stands for the guard of
the while loop failing. -/

def parallelLoop (modelName textPrompt : String) (numImages : ℕ)
    (outcomes : ℕ → Except String String) (max_retries : ℕ) :
    ℕ → ℕ → ClientState → ClientState × Option (Except String OkResponse)
  | 0, _, st => (st, none)
  | fuel + 1, retries, st =>
    match outcomes retries with
    | Except.ok text =>
      let p := geminiSuccess modelName textPrompt numImages text retries st
      (p.1, some (Except.ok p.2))
    | Except.error e =>
      if retries + 1 > max_retries then (st, some (Except.error e))
      else parallelLoop modelName textPrompt numImages outcomes max_retries
        fuel (retries + 1) st

/-- ParallelGeminiVisionWrapper.vision_chat_completion (semaphore-guarded
body; the concurrency permit itself is modelled in the governor section). -/
def parallel_vision_chat_completion (modelName : String) (msgs : List ChatMessage)
    (outcomes : ℕ → Except String String) (max_retries : ℕ) (st : ClientState) :
    ClientState × Option (Except String OkResponse) :=
  parallelLoop modelName (buildTextPrompt msgs) (imagePartsOf msgs).length
    outcomes max_retries (max_retries + 1) 0 st

/-! ## Combined classifier, asynchronous retry loop

From vision_doc_classifier_combined file,
GeminiVisionWrapper.vision_chat_completion_async.  Same accounting as the
synchronous loop; the failure branch checks retries >= max_retries and,
before the next attempt, sleeps 2 ** retries seconds (retries already
incremented) when the error message contains "429" or "Rate limit", and
a fixed 2 seconds otherwise. -/

/-- Rate-limit test of the async handler:
"429" in error_msg or "Rate limit" in error_msg. -/
def isRateLimitError (msg : String) : Bool :=
  containsStr msg "429" || containsStr msg "Rate limit"

/-- The asyncio sleep applied before retry number r (the incremented
retries counter) after an error with message msg. -/
def asyncRetrySleep (msg : String) (r : ℕ) : ℕ :=
  if isRateLimitError msg then 2 ^ r else 2

def asyncLoop (modelName textPrompt : String) (numImages : ℕ)
    (outcomes : ℕ → Except String String) (max_retries : ℕ) :
    ℕ → ℕ → ClientState → ClientState × List ℕ × Option CallOutcome
  | 0, _, st => (st, [], none)
  | fuel + 1, retries, st =>
    match outcomes retries with
    | Except.ok text =>
      let p := geminiSuccess modelName textPrompt numImages text retries st
      (p.1, [], some (CallOutcome.ok p.2))
    | Except.error e =>
      if retries ≥ max_retries then
        (st, [], some (CallOutcome.err e 0 retries))
      else
        let r := asyncLoop modelName textPrompt numImages outcomes max_retries
          fuel (retries + 1) st
        (r.1, asyncRetrySleep e (retries + 1) :: r.2.1, r.2.2)

/-- GeminiVisionWrapper.vision_chat_completion_async of the combined
classifier (semaphore-guarded body). -/
def async_vision_chat_completion (modelName : String) (msgs : List ChatMessage)
    (outcomes : ℕ → Except String String) (max_retries : ℕ) (st : ClientState) :
    ClientState × List ℕ × Option CallOutcome :=
  asyncLoop modelName (buildTextPrompt msgs) (imagePartsOf msgs).length
    outcomes max_retries (max_retries + 1) 0 st

/-! ## Accuracy calculation, Gemini classifier

From vision_doc_classifier_gemini file, calculate_accuracy.  A result
dictionary produced by classify_document_with_vision carries the file
path, filename, the extracted classification (None when the tags or the
marker were absent) and the timing/cost fields; result.get defaults are
folded into total fields.  The validation table is a list of rows; the
expected-classification dictionary built from it keeps, per file path,
the last row (dict insertion overwrites). -/

structure GemResult where
  file : String
  filename : String
  classification : Option String
  response_time : ℚ
  cost : ℚ
  retries : ℕ
deriving DecidableEq

structure VRow where
  file_path : String
  classification : String
deriving DecidableEq

/-- Python os.path.basename on a posix path: text after the last slash. -/
def pyBasename (s : String) : String :=
  String.mk ((s.data.reverse.takeWhile (fun c => c ≠ '/')).reverse)

/-- Lookup in the expected-classification dictionary: the classification
of the last validation row whose file_path matches. -/
def expectedFor (validation : List VRow) (fp : String) : Option String :=
  (validation.reverse.find? (fun r => r.file_path == fp)).map
    (fun r => r.classification)

/-- One detailed_results entry. -/
structure AccDetail where
  file : String
  filename : String
  predicted : String
  expected : String
  correct : Bool
  response_time : ℚ
  cost : ℚ
  retries : ℕ
deriving DecidableEq

/-- Body of the for-loop of calculate_accuracy: skip results whose
classification is falsy (None or empty) or whose file is not in the
expected dictionary; otherwise bump correct_count on a match, bump
total_count, and append a detailed entry. -/
def accStep (validation : List VRow) (acc : ℕ × ℕ × List AccDetail)
    (r : GemResult) : ℕ × ℕ × List AccDetail :=
  match r.classification with
  | none => acc
  | some p =>
    if p = "" then acc
    else
      match expectedFor validation r.file with
      | none => acc
      | some exp =>
        let isCorrect : Bool := p == exp
        let entry : AccDetail := AccDetail.mk (pyBasename r.file) r.filename
          p exp isCorrect r.response_time r.cost r.retries
        ((if isCorrect then acc.1 + 1 else acc.1), acc.2.1 + 1,
          acc.2.2 ++ [entry])

/-- calculate_accuracy of the Gemini classifier: returns
(accuracy, correct_count, total_count, detailed_results) with
accuracy = correct / total when total > 0, else 0. -/
def calculate_accuracy (results : List GemResult) (validation : List VRow) :
    ℚ × ℕ × ℕ × List AccDetail :=
  let f := results.foldl (accStep validation) (0, 0, [])
  (if f.2.1 > 0 then (f.1 : ℚ) / (f.2.1 : ℚ) else 0, f.1, f.2.1, f.2.2)

/-! ## Accuracy calculation, parallel classifier

From parallel_vision_doc_classifier_gemini file, calculate_accuracy.
Every result row counts toward the denominator and the returned accuracy
is a percentage.  (Result rows produced by the error path of the harness
have no predicted key and would raise KeyError here; rows are modelled
with both keys present, as the happy path produces them.) -/

structure PResult where
  predicted : String
  expected : String
deriving DecidableEq

structure ParallelAccuracy where
  accuracy : ℚ
  correct : ℕ
  total : ℕ
  results : List PResult
deriving DecidableEq

/-- calculate_accuracy of the parallel classifier:
total = len(results), correct counts rows with predicted == expected,
accuracy = correct / total * 100 when total > 0, else 0. -/
def parallel_calculate_accuracy (results : List PResult) : ParallelAccuracy :=
  let total := results.length
  let correct := (results.filter (fun r => r.predicted == r.expected)).length
  { accuracy := if total > 0 then (correct : ℚ) / (total : ℚ) * 100 else 0,
    correct := correct, total := total, results := results }

/-! ## Classification extractor

From parallel_vision_doc_classifier_gemini file,
test_documents_with_vision: the response text is stripped, then the line
fragment after the marker is cut out with
split("Final Classification:")[1].split("\n")[0].strip(); when the
literal marker is absent a regular-expression search for the raw pattern
(the marker, optional whitespace, one or more word characters, captured)
is attempted, and failing that the label is UNKNOWN. -/

def fcMarker : List Char := "Final Classification:".data

/-- Word character of the regex class w: letters, digits, underscore. -/
def isWordChar (c : Char) : Bool := c.isAlphanum || c == '_'

/-- Try to match the regex at the head of l: the marker literal, then
greedy optional whitespace, then one or more word characters (captured). -/
def tryMatchFC (l : List Char) : Option (List Char) :=
  if startsWithCh fcMarker l then
    let rest := (List.drop fcMarker.length l).dropWhile Char.isWhitespace
    let w := rest.takeWhile isWordChar
    if w.isEmpty then none else some w
  else none

/-- re.search for the marker pattern: leftmost match wins. -/
def reSearchFC : List Char → Option (List Char)
  | [] => tryMatchFC []
  | c :: cs =>
    match tryMatchFC (c :: cs) with
    | some w => some w
    | none => reSearchFC cs

/-- The classification extractor of the parallel harness.  The inner
none branch is unreachable: when the marker occurs in the text the
Python indexing split(...)[1] succeeds. -/
def extract_classification (responseText : String) : String :=
  let text := stripCh responseText.data
  if containsCh fcMarker text then
    match pySplitSegment1 fcMarker text with
    | some seg => String.mk (stripCh (seg.takeWhile (fun c => c ≠ '\n')))
    | none => "UNKNOWN"
  else
    match reSearchFC text with
    | some w => String.mk w
    | none => "UNKNOWN"

/-- Modelled from the spec (claim C5 wording): take the remainder of the
line following the first occurrence of the marker, trimmed; when the
marker is absent attempt the regular-expression fallback; otherwise the
sentinel UNKNOWN. -/
def extract_classification_spec (responseText : String) : String :=
  let text := stripCh responseText.data
  match findSplitCh fcMarker text with
  | some pr => String.mk (stripCh (pr.2.takeWhile (fun c => c ≠ '\n')))
  | none =>
    match reSearchFC text with
    | some w => String.mk w
    | none => "UNKNOWN"

/-! ## Multi-run consistency aggregation

From aggregate_flash_lite.py, aggregate_results: per filename, the
predictions of that file across runs are tallied into a dictionary
(skipping falsy predictions), the most common prediction is
max(predictions.items(), key=count) — Python max returns the first
maximal item in insertion order — and the consistency percentage divides
its count by the number of runs for that file. -/

/-- Dictionary update predictions[p] = predictions.get(p, 0) + 1:
bump the first entry with the key, else append a fresh entry. -/
def bumpTally : List (String × ℕ) → String → List (String × ℕ)
  | [], p => [(p, 1)]
  | (k, c) :: rest, p =>
    if k = p then (k, c + 1) :: rest else (k, c) :: bumpTally rest p

/-- The predictions dictionary: counts of the non-empty predictions, keys
in first-encounter order. -/
def tallyPredictions (preds : List String) : List (String × ℕ) :=
  preds.foldl (fun acc p => if p = "" then acc else bumpTally acc p) []

/-- Python max(items, key=lambda x: x[1]) over a nonempty list hd :: tl:
the first item with the maximal second component. -/
def pyMaxBySnd (hd : String × ℕ) (tl : List (String × ℕ)) : String × ℕ :=
  tl.foldl (fun best p => if best.2 < p.2 then p else best) hd

/-- most_common of aggregate_results: the first maximal entry of the
predictions dictionary, or ("", 0) when the dictionary is empty. -/
def most_common (preds : List String) : String × ℕ :=
  match tallyPredictions preds with
  | [] => ("", 0)
  | h :: t => pyMaxBySnd h t

/-- consistency_percentage of aggregate_results. -/
def consistency_percentage (preds : List String) : ℚ :=
  if preds.isEmpty then 0
  else ((most_common preds).2 : ℚ) / (preds.length : ℚ) * 100

/-- Keys in first-encounter order: the order in which distinct values
appear in the list (used to state the dictionary-order lemma). -/
def firstOccs (l : List String) : List String :=
  l.foldl (fun acc x => if x ∈ acc then acc else acc ++ [x]) []

/-! ## PDF page renderer

From vision_doc_classifier_gemini file, convert_pdf_pages_to_images.
A document is none when fitz.open raises (unreadable file), otherwise an
encryption flag plus the per-page outcome of the render-encode pipeline
(pixmap, png bytes, base64), which is external library behaviour and
therefore an oracle per page: the resulting base64 string, or the raised
error.  An encrypted document yields the empty list; a failed page is
logged and skipped. -/

inductive PageRender where
  | rendered (base64Image : String)
  | renderFail (msg : String)
deriving DecidableEq

structure PdfDoc where
  encrypted : Bool
  pages : List PageRender
deriving DecidableEq

/-- convert_pdf_pages_to_images with an explicit max_pages (the source
reads PAGES_NO, default 2, when the argument is omitted). -/
def convert_pdf_pages_to_images (doc : Option PdfDoc) (max_pages : ℕ) :
    List String :=
  match doc with
  | none => []
  | some d =>
    if d.encrypted then []
    else
      (d.pages.take (min d.pages.length max_pages)).filterMap fun p =>
        match p with
        | PageRender.rendered img => some img
        | PageRender.renderFail _ => none

/-! ## Concurrency governor

From parallel_vision_doc_classifier_gemini file (asyncio.Semaphore of
capacity max_concurrent, entered with async-with around the whole call
body) and the identical discipline of the combined classifier.  The
system is a transition relation over the semaphore counter plus the
phase of each task: a task acquires a permit only when the counter is
positive and, in whatever way its guarded body ends — success, failure
or cancellation — leaves the async-with block, which restores the
counter. -/

inductive FinishKind where
  | success
  | failure
  | cancelled
deriving DecidableEq

inductive TaskPhase where
  | notStarted
  | holding
  | finished (k : FinishKind)
deriving DecidableEq

/-- Number of tasks currently holding a permit (in-flight calls). -/
def countHolding : List TaskPhase → ℕ
  | [] => 0
  | TaskPhase.holding :: rest => countHolding rest + 1
  | _ :: rest => countHolding rest

structure GovState where
  avail : ℕ
  tasks : List TaskPhase
deriving DecidableEq

/-- One scheduler step: either a not-yet-started task acquires a permit
(possible only when one is available), or a task holding a permit ends
its guarded body in any of the three ways and releases the permit. -/
inductive GovStep : GovState → GovState → Prop
  | acquire (s : GovState) (i : ℕ)
      (h : s.tasks.get? i = some TaskPhase.notStarted) (ha : 0 < s.avail) :
      GovStep s ⟨s.avail - 1, s.tasks.set i TaskPhase.holding⟩
  | finish (s : GovState) (i : ℕ) (k : FinishKind)
      (h : s.tasks.get? i = some TaskPhase.holding) :
      GovStep s ⟨s.avail + 1, s.tasks.set i (TaskPhase.finished k)⟩

/-- Initial state: a full semaphore of capacity cap and n idle tasks. -/
def govInit (cap n : ℕ) : GovState :=
  ⟨cap, List.replicate n TaskPhase.notStarted⟩

/-- States reachable from the initial state by scheduler steps. -/
def GovReachable (cap n : ℕ) (s : GovState) : Prop :=
  Relation.ReflTransGen GovStep (govInit cap n) s

/-! ## Lemmas about the retry loops -/

/-- With enough fuel for the loop guard, the Gemini retry loop returns a
result; its retries field counts the start value plus one per sleep and
never exceeds max_retries. -/
theorem geminiLoop_bounds (mn tp : String) (ni : ℕ)
    (oc : ℕ → Except String String) (mr : ℕ) :
    ∀ fuel retries st, retries ≤ mr → mr < retries + fuel →
    ∃ out, (geminiLoop mn tp ni oc mr fuel retries st).2.2 = some out ∧
      out.retriesOf =
        retries + (geminiLoop mn tp ni oc mr fuel retries st).2.1.length ∧
      out.retriesOf ≤ mr := by
  intro fuel
  induction fuel with
  | zero => intro retries st h1 h2; omega
  | succ fuel ih =>
    intro retries st h1 h2
    cases hoc : oc retries with
    | ok text =>
      refine ⟨CallOutcome.ok (geminiSuccess mn tp ni text retries st).2,
        ?_, ?_, ?_⟩ <;>
        simp [geminiLoop, hoc, geminiSuccess, CallOutcome.retriesOf, h1]
    | error e =>
      by_cases hr : retries = mr
      · subst hr
        refine ⟨CallOutcome.err e 0 retries, ?_, ?_, ?_⟩ <;>
          simp [geminiLoop, hoc, CallOutcome.retriesOf]
      · obtain ⟨out, hsome, hlen, hle⟩ := ih (retries + 1) st (by omega) (by omega)
        refine ⟨out, ?_, ?_, hle⟩ <;>
          simp [geminiLoop, hoc, hr, hsome] <;> omega

/-- Azure analogue of geminiLoop_bounds: totality plus the retry bound. -/
theorem azureLoop_bounds (dep : String) (tmo : ℕ) (costOf : ℕ → ℕ → ℚ)
    (att : ℕ → AzureAttempt) (mr : ℕ) :
    ∀ fuel retries st, retries ≤ mr → mr < retries + fuel →
    ∃ out, (azureLoop dep tmo costOf att mr fuel retries st).2.2 = some out ∧
      out.retriesOf =
        retries + (azureLoop dep tmo costOf att mr fuel retries st).2.1.length ∧
      out.retriesOf ≤ mr := by
  intro fuel
  induction fuel with
  | zero => intro retries st h1 h2; omega
  | succ fuel ih =>
    intro retries st h1 h2
    cases hoc : att retries with
    | ok body =>
      refine ⟨CallOutcome.ok (azureSuccess dep costOf body retries st).2,
        ?_, ?_, ?_⟩ <;>
        simp [azureLoop, hoc, azureSuccess, CallOutcome.retriesOf, h1]
    | httpErr code text =>
      by_cases hr : retries = mr
      · subst hr
        refine ⟨CallOutcome.err (azureErrMsg tmo (AzureAttempt.httpErr code text))
          0 retries, ?_, ?_, ?_⟩ <;>
          simp [azureLoop, hoc, CallOutcome.retriesOf]
      · obtain ⟨out, hsome, hlen, hle⟩ := ih (retries + 1) st (by omega) (by omega)
        refine ⟨out, ?_, ?_, hle⟩ <;>
          simp [azureLoop, hoc, hr, hsome] <;> omega
    | timedOut =>
      by_cases hr : retries = mr
      · subst hr
        refine ⟨CallOutcome.err (azureErrMsg tmo AzureAttempt.timedOut)
          0 retries, ?_, ?_, ?_⟩ <;>
          simp [azureLoop, hoc, CallOutcome.retriesOf]
      · obtain ⟨out, hsome, hlen, hle⟩ := ih (retries + 1) st (by omega) (by omega)
        refine ⟨out, ?_, ?_, hle⟩ <;>
          simp [azureLoop, hoc, hr, hsome] <;> omega
    | reqErr msg =>
      by_cases hr : retries = mr
      · subst hr
        refine ⟨CallOutcome.err (azureErrMsg tmo (AzureAttempt.reqErr msg))
          0 retries, ?_, ?_, ?_⟩ <;>
          simp [azureLoop, hoc, CallOutcome.retriesOf]
      · obtain ⟨out, hsome, hlen, hle⟩ := ih (retries + 1) st (by omega) (by omega)
        refine ⟨out, ?_, ?_, hle⟩ <;>
          simp [azureLoop, hoc, hr, hsome] <;> omega

/-- Claim C2: every completed vision_chat_completion call (successful or
failed) returns a retries field at most the configured max_retries, and
the retry sequence performs at most max_retries additional attempts (one
recorded sleep per additional attempt), for both the Gemini wrapper and
the Azure OpenAI wrapper. -/
theorem claim_C2 (mn dep : String) (tmo : ℕ) (costOf : ℕ → ℕ → ℚ)
    (msgs : List ChatMessage) (oc : ℕ → Except String String)
    (att : ℕ → AzureAttempt) (mr : ℕ) (st st' : ClientState) :
    (∃ out, (gemini_vision_chat_completion mn msgs oc mr st).2.2 = some out ∧
      out.retriesOf ≤ mr ∧
      (gemini_vision_chat_completion mn msgs oc mr st).2.1.length ≤ mr) ∧
    (∃ out, (azure_vision_chat_completion dep tmo costOf att mr st').2.2 = some out ∧
      out.retriesOf ≤ mr ∧
      (azure_vision_chat_completion dep tmo costOf att mr st').2.1.length ≤ mr) := by
  constructor
  · simp only [gemini_vision_chat_completion]
    obtain ⟨out, hsome, hlen, hle⟩ := geminiLoop_bounds mn (buildTextPrompt msgs)
      (imagePartsOf msgs).length oc mr (mr + 1) 0 st (Nat.zero_le mr) (by omega)
    exact ⟨out, hsome, hle, by omega⟩
  · simp only [azure_vision_chat_completion]
    obtain ⟨out, hsome, hlen, hle⟩ := azureLoop_bounds dep tmo costOf att mr
      (mr + 1) 0 st' (Nat.zero_le mr) (by omega)
    exact ⟨out, hsome, hle, by omega⟩

/-- When every attempt raises, the Gemini loop leaves the state
untouched, sleeps 2 seconds before each of the max_retries retries, and
returns the error dictionary of the last attempt with cost 0. -/
theorem geminiLoop_allFail (mn tp : String) (ni : ℕ)
    (oc : ℕ → Except String String) (errOf : ℕ → String) (mr : ℕ)
    (h : ∀ n, oc n = Except.error (errOf n)) :
    ∀ fuel retries st, retries ≤ mr → mr < retries + fuel →
    geminiLoop mn tp ni oc mr fuel retries st =
      (st, List.replicate (mr - retries) 2,
        some (CallOutcome.err (errOf mr) 0 mr)) := by
  intro fuel
  induction fuel with
  | zero => intro retries st h1 h2; omega
  | succ fuel ih =>
    intro retries st h1 h2
    by_cases hr : retries = mr
    · subst hr
      simp [geminiLoop, h retries, Nat.sub_self]
    · have hrep : mr - retries = (mr - (retries + 1)) + 1 := by omega
      simp [geminiLoop, h retries, hr, ih (retries + 1) st (by omega) (by omega),
        hrep, List.replicate_succ]

/-- Azure analogue: with no successful attempt the loop returns the
error dictionary of the last attempt, cost 0, state untouched. -/
theorem azureLoop_allFail (dep : String) (tmo : ℕ) (costOf : ℕ → ℕ → ℚ)
    (att : ℕ → AzureAttempt) (mr : ℕ)
    (h : ∀ n body, att n ≠ AzureAttempt.ok body) :
    ∀ fuel retries st, retries ≤ mr → mr < retries + fuel →
    azureLoop dep tmo costOf att mr fuel retries st =
      (st, List.replicate (mr - retries) 2,
        some (CallOutcome.err (azureErrMsg tmo (att mr)) 0 mr)) := by
  intro fuel
  induction fuel with
  | zero => intro retries st h1 h2; omega
  | succ fuel ih =>
    intro retries st h1 h2
    by_cases hr : retries = mr
    · subst hr
      cases hoc : att retries with
      | ok body => exact absurd hoc (h retries body)
      | httpErr code text => simp [azureLoop, hoc, Nat.sub_self]
      | timedOut => simp [azureLoop, hoc, Nat.sub_self]
      | reqErr msg => simp [azureLoop, hoc, Nat.sub_self]
    · have hrep : mr - retries = (mr - (retries + 1)) + 1 := by omega
      have hrec := ih (retries + 1) st (by omega) (by omega)
      cases hoc : att retries with
      | ok body => exact absurd hoc (h retries body)
      | httpErr code text =>
        simp [azureLoop, hoc, hr, hrec, hrep, List.replicate_succ]
      | timedOut => simp [azureLoop, hoc, hr, hrec, hrep, List.replicate_succ]
      | reqErr msg => simp [azureLoop, hoc, hr, hrec, hrep, List.replicate_succ]

/-- When every attempt raises, the parallel loop re-raises the last
error instead of returning an error dictionary. -/
theorem parallelLoop_allFail (mn tp : String) (ni : ℕ)
    (oc : ℕ → Except String String) (errOf : ℕ → String) (mr : ℕ)
    (h : ∀ n, oc n = Except.error (errOf n)) :
    ∀ fuel retries st, retries ≤ mr → mr < retries + fuel →
    parallelLoop mn tp ni oc mr fuel retries st =
      (st, some (Except.error (errOf mr))) := by
  intro fuel
  induction fuel with
  | zero => intro retries st h1 h2; omega
  | succ fuel ih =>
    intro retries st h1 h2
    by_cases hr : retries = mr
    · subst hr
      simp [parallelLoop, h retries]
    · have : ¬ retries + 1 > mr := by omega
      simp [parallelLoop, h retries, this, ih (retries + 1) st (by omega) (by omega)]

/-- Claim C1 (as stated, refuted): with every attempt failing, the
parallel wrapper's vision_chat_completion does not return normally with
an error-carrying result — it re-raises the final error. -/
theorem claim_C1_counterexample :
    parallel_vision_chat_completion "gemini-1.5-flash" []
      (fun _ => Except.error "boom") 2 geminiInitState =
      (geminiInitState, some (Except.error "boom")) ∧
    ∀ r : OkResponse,
      (some (Except.error "boom") : Option (Except String OkResponse)) ≠
        some (Except.ok r) := by
  constructor
  · rfl
  · intro r hcontra
    simp at hcontra

/-- Claim C1 as amended: once retries are exhausted the synchronous
Gemini wrapper and the Azure wrapper return normally with a result
carrying the error message, cost 0 and the retry count, but the parallel
Gemini wrapper instead re-raises the last error. -/
theorem claim_C1_amended (mn dep : String) (tmo : ℕ) (costOf : ℕ → ℕ → ℚ)
    (msgs : List ChatMessage) (oc : ℕ → Except String String)
    (errOf : ℕ → String) (att : ℕ → AzureAttempt) (mr : ℕ)
    (st1 st2 st3 : ClientState)
    (hg : ∀ n, oc n = Except.error (errOf n))
    (ha : ∀ n body, att n ≠ AzureAttempt.ok body) :
    gemini_vision_chat_completion mn msgs oc mr st1 =
      (st1, List.replicate mr 2, some (CallOutcome.err (errOf mr) 0 mr)) ∧
    azure_vision_chat_completion dep tmo costOf att mr st2 =
      (st2, List.replicate mr 2,
        some (CallOutcome.err (azureErrMsg tmo (att mr)) 0 mr)) ∧
    parallel_vision_chat_completion mn msgs oc mr st3 =
      (st3, some (Except.error (errOf mr))) := by
  refine ⟨?_, ?_, ?_⟩
  · have := geminiLoop_allFail mn (buildTextPrompt msgs)
      (imagePartsOf msgs).length oc errOf mr hg (mr + 1) 0 st1
      (Nat.zero_le mr) (by omega)
    simpa [gemini_vision_chat_completion] using this
  · have := azureLoop_allFail dep tmo costOf att mr ha (mr + 1) 0 st2
      (Nat.zero_le mr) (by omega)
    simpa [azure_vision_chat_completion] using this
  · have := parallelLoop_allFail mn (buildTextPrompt msgs)
      (imagePartsOf msgs).length oc errOf mr hg (mr + 1) 0 st3
      (Nat.zero_le mr) (by omega)
    simpa [parallel_vision_chat_completion] using this

/-- Witness for claim C1: the amended statement at a concrete all-fail
run with max_retries = 2. -/
theorem claim_C1_witness :
    gemini_vision_chat_completion "gemini-1.5-flash" []
      (fun _ => Except.error "boom") 2 geminiInitState =
      (geminiInitState, [2, 2], some (CallOutcome.err "boom" 0 2)) ∧
    azure_vision_chat_completion "gpt-4o" 120 (fun _ _ => 0)
      (fun _ => AzureAttempt.timedOut) 2 geminiInitState =
      (geminiInitState, [2, 2],
        some (CallOutcome.err "Request timed out after 120 seconds" 0 2)) ∧
    parallel_vision_chat_completion "gemini-1.5-flash" []
      (fun _ => Except.error "boom") 2 geminiInitState =
      (geminiInitState, some (Except.error "boom")) := by
  have h := claim_C1_amended "gemini-1.5-flash" "gpt-4o" 120 (fun _ _ => 0) []
    (fun _ => Except.error "boom") (fun _ => "boom")
    (fun _ => AzureAttempt.timedOut) 2 geminiInitState geminiInitState
    geminiInitState (fun _ => rfl) (fun _ _ hcontra => by cases hcontra)
  obtain ⟨h1, h2, h3⟩ := h
  refine ⟨?_, ?_, h3⟩
  · simpa [List.replicate] using h1
  · simpa [List.replicate, azureErrMsg] using h2

/-- The Gemini loop only ever appends to usage_history: one record when
the call ends in a success, none when it ends in the error dictionary. -/
theorem geminiLoop_history (mn tp : String) (ni : ℕ)
    (oc : ℕ → Except String String) (mr : ℕ) :
    ∀ fuel retries st, ∃ tail,
      (geminiLoop mn tp ni oc mr fuel retries st).1.usage_history =
        st.usage_history ++ tail ∧
      tail.length = (match (geminiLoop mn tp ni oc mr fuel retries st).2.2 with
        | some (CallOutcome.ok _) => 1
        | _ => 0) := by
  intro fuel
  induction fuel with
  | zero => intro retries st; exact ⟨[], by simp [geminiLoop], by simp [geminiLoop]⟩
  | succ fuel ih =>
    intro retries st
    cases hoc : oc retries with
    | ok text =>
      refine ⟨[UsageRecord.mk mn (estimatedInputTokens tp ni)
        (estimatedOutputTokens text)
        (estimatedInputTokens tp ni + estimatedOutputTokens text)
        ((estimatedInputTokens tp ni : ℚ) / 1000 * geminiInputRate +
          (estimatedOutputTokens text : ℚ) / 1000 * geminiOutputRate)
        retries], ?_, ?_⟩ <;>
        simp [geminiLoop, hoc, geminiSuccess]
    | error e =>
      by_cases hr : retries = mr
      · subst hr
        exact ⟨[], by simp [geminiLoop, hoc], by simp [geminiLoop, hoc]⟩
      · obtain ⟨tail, hh, hl⟩ := ih (retries + 1) st
        refine ⟨tail, ?_, ?_⟩ <;> simp [geminiLoop, hoc, hr, hh, hl]

/-- Claim C8 (as stated, refuted): a Gemini call whose first attempt
fails and whose second succeeds performs two attempts (one sleep, final
retries field 1), yet usage_history grows by a single record, not two —
failed attempts append nothing. -/
theorem claim_C8_counterexample :
    (gemini_vision_chat_completion "gemini-1.5-flash" []
      (fun n => if n = 0 then Except.error "boom" else Except.ok "hi") 2
      geminiInitState).1.usage_history.length = 1 ∧
    (gemini_vision_chat_completion "gemini-1.5-flash" []
      (fun n => if n = 0 then Except.error "boom" else Except.ok "hi") 2
      geminiInitState).2.1 = [2] ∧
    ((gemini_vision_chat_completion "gemini-1.5-flash" []
      (fun n => if n = 0 then Except.error "boom" else Except.ok "hi") 2
      geminiInitState).2.2).map CallOutcome.retriesOf = some 1 ∧
    (1 : ℕ) ≠ 1 + 1 := by
  refine ⟨rfl, rfl, rfl, by omega⟩

/-- Claim C8 as amended: a vision_chat_completion call appends exactly
one UsageRecord when it returns a successful response and none when it
returns the error dictionary; the pre-existing history is preserved
unchanged (records are never mutated), whatever the number of attempts
performed. -/
theorem claim_C8_amended (mn : String) (msgs : List ChatMessage)
    (oc : ℕ → Except String String) (mr : ℕ) (st : ClientState) :
    ∃ tail, (gemini_vision_chat_completion mn msgs oc mr st).1.usage_history =
      st.usage_history ++ tail ∧
      tail.length =
        (match (gemini_vision_chat_completion mn msgs oc mr st).2.2 with
          | some (CallOutcome.ok _) => 1
          | _ => 0) := by
  simpa [gemini_vision_chat_completion] using
    geminiLoop_history mn (buildTextPrompt msgs) (imagePartsOf msgs).length
      oc mr (mr + 1) 0 st

/-! ## Running-total invariant (claim C10) -/

/-- The consistency of the client's running totals: the total token
counter is the sum of the input and output counters, total_cost is the
sum of the costs of the appended usage records, and total_cost is
nonnegative. -/
def ClientInvariant (st : ClientState) : Prop :=
  st.tokens_total = st.tokens_input + st.tokens_output ∧
  st.total_cost = (st.usage_history.map UsageRecord.cost).sum ∧
  0 ≤ st.total_cost

/-- The estimated cost of a successful Gemini attempt is nonnegative. -/
theorem geminiAttemptCost_nonneg (ein eout : ℕ) :
    0 ≤ (ein : ℚ) / 1000 * geminiInputRate + (eout : ℚ) / 1000 * geminiOutputRate := by
  unfold geminiInputRate geminiOutputRate
  positivity

/-- A successful attempt preserves the running-total invariant. -/
theorem geminiSuccess_invariant (mn tp : String) (ni : ℕ) (text : String)
    (retries : ℕ) (st : ClientState) (h : ClientInvariant st) :
    ClientInvariant (geminiSuccess mn tp ni text retries st).1 := by
  obtain ⟨h1, h2, h3⟩ := h
  have hc := geminiAttemptCost_nonneg (estimatedInputTokens tp ni)
    (estimatedOutputTokens text)
  refine ⟨?_, ?_, ?_⟩
  · have : st.tokens_total + (estimatedInputTokens tp ni +
        estimatedOutputTokens text) =
        (st.tokens_input + estimatedInputTokens tp ni) +
        (st.tokens_output + estimatedOutputTokens text) := by omega
    simpa [geminiSuccess] using this
  · have : st.total_cost + ((estimatedInputTokens tp ni : ℚ) / 1000 *
        geminiInputRate + (estimatedOutputTokens text : ℚ) / 1000 *
        geminiOutputRate) =
        (List.map UsageRecord.cost st.usage_history).sum +
        ((estimatedInputTokens tp ni : ℚ) / 1000 * geminiInputRate +
          (estimatedOutputTokens text : ℚ) / 1000 * geminiOutputRate) := by
      rw [h2]
    simpa [geminiSuccess] using this
  · have : (0 : ℚ) ≤ st.total_cost + ((estimatedInputTokens tp ni : ℚ) / 1000 *
        geminiInputRate + (estimatedOutputTokens text : ℚ) / 1000 *
        geminiOutputRate) := by linarith
    simpa [geminiSuccess] using this

/-- The Gemini retry loop preserves the running-total invariant. -/
theorem geminiLoop_invariant (mn tp : String) (ni : ℕ)
    (oc : ℕ → Except String String) (mr : ℕ) :
    ∀ fuel retries st, ClientInvariant st →
      ClientInvariant (geminiLoop mn tp ni oc mr fuel retries st).1 := by
  intro fuel
  induction fuel with
  | zero => intro retries st h; simpa [geminiLoop] using h
  | succ fuel ih =>
    intro retries st h
    cases hoc : oc retries with
    | ok text =>
      have := geminiSuccess_invariant mn tp ni text retries st h
      simpa [geminiLoop, hoc] using this
    | error e =>
      by_cases hr : retries = mr
      · subst hr; simpa [geminiLoop, hoc] using h
      · have := ih (retries + 1) st h
        simpa [geminiLoop, hoc, hr] using this

/-- One vision_chat_completion call of a run: its messages, the provider
oracle for its attempts, and the max_retries argument. -/
structure GemCallSpec where
  modelName : String
  msgs : List ChatMessage
  outcomes : ℕ → Except String String
  max_retries : ℕ

/-- A sequence of vision_chat_completion calls on one client instance. -/
def runGeminiCalls (calls : List GemCallSpec) (st : ClientState) : ClientState :=
  calls.foldl
    (fun s c => (gemini_vision_chat_completion c.modelName c.msgs
      c.outcomes c.max_retries s).1) st

/-- Claim C10: after any sequence of vision_chat_completion calls on a
freshly constructed Gemini client — calls ending in success or in the
error dictionary alike — the running totals stay mutually consistent:
the total token counter equals input plus output, total_cost equals the
sum of the cost fields of usage_history, and total_cost is nonnegative. -/
theorem claim_C10 (calls : List GemCallSpec) :
    (runGeminiCalls calls geminiInitState).tokens_total =
      (runGeminiCalls calls geminiInitState).tokens_input +
        (runGeminiCalls calls geminiInitState).tokens_output ∧
    (runGeminiCalls calls geminiInitState).total_cost =
      ((runGeminiCalls calls geminiInitState).usage_history.map
        UsageRecord.cost).sum ∧
    0 ≤ (runGeminiCalls calls geminiInitState).total_cost := by
  have hinit : ClientInvariant geminiInitState := by
    refine ⟨rfl, by simp [geminiInitState], le_refl 0⟩
  have main : ∀ (cs : List GemCallSpec) (st : ClientState), ClientInvariant st →
      ClientInvariant (runGeminiCalls cs st) := by
    intro cs
    induction cs with
    | nil => intro st h; simpa [runGeminiCalls] using h
    | cons c rest ih =>
      intro st h
      have hstep : ClientInvariant
          (gemini_vision_chat_completion c.modelName c.msgs c.outcomes
            c.max_retries st).1 := by
        have := geminiLoop_invariant c.modelName (buildTextPrompt c.msgs)
          (imagePartsOf c.msgs).length c.outcomes c.max_retries
          (c.max_retries + 1) 0 st h
        simpa [gemini_vision_chat_completion] using this
      have := ih _ hstep
      simpa [runGeminiCalls] using this
  exact main calls geminiInitState hinit

/-! ## Retry delays (claim C4) -/

/-- Every sleep recorded by the synchronous Gemini loop is the fixed 2
seconds, whatever the error was. -/
theorem geminiLoop_sleeps (mn tp : String) (ni : ℕ)
    (oc : ℕ → Except String String) (mr : ℕ) :
    ∀ fuel retries st d,
      d ∈ (geminiLoop mn tp ni oc mr fuel retries st).2.1 → d = 2 := by
  intro fuel
  induction fuel with
  | zero => intro retries st d hd; simp [geminiLoop] at hd
  | succ fuel ih =>
    intro retries st d hd
    cases hoc : oc retries with
    | ok text => simp [geminiLoop, hoc] at hd
    | error e =>
      by_cases hr : retries = mr
      · subst hr
        simp [geminiLoop, hoc] at hd
      · simp [geminiLoop, hoc, hr] at hd
        rcases hd with hd | hd
        · exact hd
        · exact ih (retries + 1) st d hd

/-- The i-th sleep of the asynchronous loop follows the failure of
attempt retries + i and equals 2 ^ r seconds — r the incremented retries
counter — when the error message signals a rate limit, 2 otherwise. -/
theorem asyncLoop_sleeps (mn tp : String) (ni : ℕ)
    (oc : ℕ → Except String String) (mr : ℕ) :
    ∀ fuel retries st i d,
      (asyncLoop mn tp ni oc mr fuel retries st).2.1.get? i = some d →
      ∃ e, oc (retries + i) = Except.error e ∧
        d = asyncRetrySleep e (retries + i + 1) := by
  intro fuel
  induction fuel with
  | zero => intro retries st i d hd; simp [asyncLoop] at hd
  | succ fuel ih =>
    intro retries st i d hd
    cases hoc : oc retries with
    | ok text => simp [asyncLoop, hoc] at hd
    | error e =>
      by_cases hr : retries ≥ mr
      · simp [asyncLoop, hoc, hr] at hd
      · have hstep : (asyncLoop mn tp ni oc mr (fuel + 1) retries st).2.1 =
            asyncRetrySleep e (retries + 1) ::
              (asyncLoop mn tp ni oc mr fuel (retries + 1) st).2.1 := by
          simp [asyncLoop, hoc, hr]
        rw [hstep] at hd
        cases i with
        | zero =>
          rw [List.get?_cons_zero] at hd
          refine ⟨e, by simpa using hoc, ?_⟩
          have hval : d = asyncRetrySleep e (retries + 1) := by
            injection hd with h
            exact h.symm
          simpa using hval
        | succ i =>
          rw [List.get?_cons_succ] at hd
          obtain ⟨e', he', hde⟩ := ih (retries + 1) st i d hd
          refine ⟨e', ?_, ?_⟩
          · rw [show retries + (i + 1) = retries + 1 + i by omega]
            exact he'
          · rw [hde]
            congr 1
            omega

/-- Claim C4 (as stated, refuted): the synchronous Gemini
vision_chat_completion sleeps the fixed 2 seconds even for rate-limit
errors: two consecutive 429 failures produce the delays [2, 2], not an
exponential schedule (neither [2, 4] nor [1, 2]). -/
theorem claim_C4_counterexample :
    (gemini_vision_chat_completion "gemini-1.5-flash" []
      (fun _ => Except.error "429 Resource has been exhausted") 2
      geminiInitState).2.1 = [2, 2] ∧
    isRateLimitError "429 Resource has been exhausted" = true ∧
    ([2, 2] : List ℕ) ≠ [2 ^ 1, 2 ^ 2] ∧
    ([2, 2] : List ℕ) ≠ [2 ^ 0, 2 ^ 1] := by
  refine ⟨rfl, by decide, by decide, by decide⟩

/-- Claim C4 as amended: only the asynchronous variant of the combined
classifier distinguishes rate-limit errors — before retry r it sleeps
2 ^ r seconds (2, 4, 8, ...) when the failed attempt's error message
contains "429" or "Rate limit" and 2 seconds otherwise — while the
synchronous vision_chat_completion variants sleep a fixed 2 seconds
before every retry, rate-limit errors included. -/
theorem claim_C4_amended (mn : String) (msgs : List ChatMessage)
    (oc : ℕ → Except String String) (mr : ℕ) (st st' : ClientState)
    (i1 i2 : ℕ) (d1 d2 : ℕ) :
    ((gemini_vision_chat_completion mn msgs oc mr st).2.1.get? i1 = some d1 →
      d1 = 2) ∧
    ((async_vision_chat_completion mn msgs oc mr st').2.1.get? i2 = some d2 →
      ∃ e, oc i2 = Except.error e ∧ d2 = asyncRetrySleep e (i2 + 1)) := by
  constructor
  · intro hd
    exact geminiLoop_sleeps mn (buildTextPrompt msgs) (imagePartsOf msgs).length
      oc mr (mr + 1) 0 st d1 (List.get?_mem hd)
  · intro hd
    have := asyncLoop_sleeps mn (buildTextPrompt msgs) (imagePartsOf msgs).length
      oc mr (mr + 1) 0 st' i2 d2 (by simpa [async_vision_chat_completion] using hd)
    simpa using this

/-- Witness for claim C4: with every attempt failing as a 429 rate
limit and max_retries = 2, the synchronous wrapper's first delay is 2
and the asynchronous wrapper's second delay is 4 = 2 ^ 2. -/
theorem claim_C4_witness :
    (2 : ℕ) = 2 ∧
    (∃ e, (Except.error "429 rate" : Except String String) = Except.error e ∧
      (4 : ℕ) = asyncRetrySleep e 2) := by
  have h := claim_C4_amended "gemini-1.5-flash" []
    (fun _ => Except.error "429 rate") 2 geminiInitState geminiInitState
    0 1 2 4
  exact ⟨h.1 rfl, h.2 rfl⟩

/-- Claim C7: on an unencrypted document whose selected pages (the first
min(total_pages, max_pages)) all render, convert_pdf_pages_to_images
returns exactly those min(total_pages, max_pages) base64 images in page
order; an unreadable document (open raised) or an encrypted one yields
the empty list instead of raising. -/
theorem claim_C7 (d : PdfDoc) (mp : ℕ) (imgs : List String)
    (rest : List PageRender)
    (henc : d.encrypted = false)
    (hpages : d.pages = imgs.map PageRender.rendered ++ rest)
    (hsel : min d.pages.length mp ≤ imgs.length) :
    convert_pdf_pages_to_images (some d) mp =
      imgs.take (min d.pages.length mp) ∧
    (convert_pdf_pages_to_images (some d) mp).length = min d.pages.length mp ∧
    convert_pdf_pages_to_images none mp = [] ∧
    ∀ d' : PdfDoc, d'.encrypted = true →
      convert_pdf_pages_to_images (some d') mp = [] := by
  have hmain : convert_pdf_pages_to_images (some d) mp =
      imgs.take (min d.pages.length mp) := by
    simp only [convert_pdf_pages_to_images, henc, Bool.false_eq_true, if_false]
    rw [hpages] at hsel ⊢
    rw [List.take_append_of_le_length (le_trans hsel (by simp)),
      ← List.map_take, List.filterMap_map]
    have hcomp : ((fun p => match p with
        | PageRender.rendered img => some img
        | PageRender.renderFail _ => none) ∘ PageRender.rendered) =
        some := by
      funext x
      rfl
    rw [hcomp, List.filterMap_some]
  refine ⟨hmain, ?_, rfl, ?_⟩
  · rw [hmain, List.length_take]
    omega
  · intro d' hd'
    simp [convert_pdf_pages_to_images, hd']

/-- Witness for claim C7: the spec scenario — a 5-page unencrypted PDF
with max_pages = 2 yields exactly the first two page images in order,
while unreadable and encrypted documents yield the empty list. -/
theorem claim_C7_witness :
    convert_pdf_pages_to_images
      (some ⟨false, [PageRender.rendered "i1", PageRender.rendered "i2",
        PageRender.rendered "i3", PageRender.rendered "i4",
        PageRender.rendered "i5"]⟩) 2 = ["i1", "i2"] ∧
    convert_pdf_pages_to_images none 2 = [] ∧
    convert_pdf_pages_to_images
      (some ⟨true, [PageRender.rendered "i1"]⟩) 2 = [] := by
  have h := claim_C7 ⟨false, [PageRender.rendered "i1", PageRender.rendered "i2",
      PageRender.rendered "i3", PageRender.rendered "i4",
      PageRender.rendered "i5"]⟩ 2 ["i1", "i2", "i3", "i4", "i5"] []
    rfl (by simp) (by decide)
  refine ⟨?_, h.2.2.1, h.2.2.2 ⟨true, [PageRender.rendered "i1"]⟩ rfl⟩
  simpa using h.1

/-! ## Accuracy properties (claim C3) -/

/-- A result that enters the accuracy denominator: a truthy (non-None,
non-empty) classification and a known expected classification. -/
def countsForAccuracy (validation : List VRow) (r : GemResult) : Bool :=
  (match r.classification with
    | some p => decide (p ≠ "")
    | none => false) && (expectedFor validation r.file).isSome

/-- A result counted as correct: counted in the denominator and the
prediction equals the expected classification. -/
def resultIsCorrect (validation : List VRow) (r : GemResult) : Bool :=
  match r.classification, expectedFor validation r.file with
  | some p, some e => decide (p ≠ "") && (p == e)
  | _, _ => false

/-- The accuracy fold counts correct results and denominator results. -/
theorem accFold_counts (validation : List VRow) :
    ∀ (results : List GemResult) (c t : ℕ) (dl : List AccDetail),
      (results.foldl (accStep validation) (c, t, dl)).1 =
        c + results.countP (resultIsCorrect validation) ∧
      (results.foldl (accStep validation) (c, t, dl)).2.1 =
        t + results.countP (countsForAccuracy validation) := by
  intro results
  induction results with
  | nil => intro c t dl; simp
  | cons r rest ih =>
    intro c t dl
    rcases hcl : r.classification with _ | p
    · have hstep : accStep validation (c, t, dl) r = (c, t, dl) := by
        simp [accStep, hcl]
      have hc : resultIsCorrect validation r = false := by
        simp [resultIsCorrect, hcl]
      have ht : countsForAccuracy validation r = false := by
        simp [countsForAccuracy, hcl]
      simpa [List.foldl_cons, hstep, List.countP_cons, hc, ht] using ih c t dl
    · by_cases hp : p = ""
      · subst hp
        have hstep : accStep validation (c, t, dl) r = (c, t, dl) := by
          simp [accStep, hcl]
        have hc : resultIsCorrect validation r = false := by
          rcases hexp : expectedFor validation r.file with _ | e <;>
            simp [resultIsCorrect, hcl, hexp]
        have ht : countsForAccuracy validation r = false := by
          simp [countsForAccuracy, hcl]
        simpa [List.foldl_cons, hstep, List.countP_cons, hc, ht] using ih c t dl
      · rcases hexp : expectedFor validation r.file with _ | e
        · have hstep : accStep validation (c, t, dl) r = (c, t, dl) := by
            simp [accStep, hcl, hp, hexp]
          have hc : resultIsCorrect validation r = false := by
            simp [resultIsCorrect, hcl, hexp]
          have ht : countsForAccuracy validation r = false := by
            simp [countsForAccuracy, hcl, hexp]
          simpa [List.foldl_cons, hstep, List.countP_cons, hc, ht] using ih c t dl
        · have ht : countsForAccuracy validation r = true := by
            simp [countsForAccuracy, hcl, hexp, hp]
          by_cases heq : p = e
          · subst heq
            have hstep : accStep validation (c, t, dl) r =
                (c + 1, t + 1, dl ++ [AccDetail.mk (pyBasename r.file)
                  r.filename p p true r.response_time r.cost r.retries]) := by
              simp [accStep, hcl, hp, hexp]
            have hc : resultIsCorrect validation r = true := by
              simp [resultIsCorrect, hcl, hexp, hp]
            have := ih (c + 1) (t + 1)
              (dl ++ [AccDetail.mk (pyBasename r.file) r.filename p p true
                r.response_time r.cost r.retries])
            simp [List.foldl_cons, hstep, List.countP_cons, hc, ht, this]
            omega
          · have hstep : accStep validation (c, t, dl) r =
                (c, t + 1, dl ++ [AccDetail.mk (pyBasename r.file)
                  r.filename p e false r.response_time r.cost r.retries]) := by
              simp [accStep, hcl, hp, hexp, heq]
            have hc : resultIsCorrect validation r = false := by
              simp [resultIsCorrect, hcl, hexp, heq]
            have := ih c (t + 1)
              (dl ++ [AccDetail.mk (pyBasename r.file) r.filename p e false
                r.response_time r.cost r.retries])
            simp [List.foldl_cons, hstep, List.countP_cons, hc, ht, this]
            omega

/-- Claim C3 (as stated, refuted): the parallel classifier's
calculate_accuracy on a single correct result returns accuracy 100 — a
0-to-100 percentage over all results, not a fraction bounded by 1. -/
theorem claim_C3_counterexample :
    (parallel_calculate_accuracy [PResult.mk "A" "A"]).accuracy = 100 ∧
    ¬ ((parallel_calculate_accuracy [PResult.mk "A" "A"]).accuracy ≤ 1) := by
  have h : (parallel_calculate_accuracy [PResult.mk "A" "A"]).accuracy = 100 := by
    norm_num [parallel_calculate_accuracy]
  refine ⟨h, ?_⟩
  rw [h]
  norm_num

/-- Claim C3 as amended: the Gemini classifier's calculate_accuracy
matches the claim — the denominator counts exactly the results with a
truthy predicted label and a known expected label, accuracy is
correct / total (0 when total is 0) and lies in [0, 1] — while the
parallel classifier's calculate_accuracy counts every result in the
denominator and returns a percentage in [0, 100]. -/
theorem claim_C3_amended (results : List GemResult) (validation : List VRow)
    (presults : List PResult) :
    (calculate_accuracy results validation).2.2.1 =
      results.countP (countsForAccuracy validation) ∧
    (calculate_accuracy results validation).2.1 =
      results.countP (resultIsCorrect validation) ∧
    (calculate_accuracy results validation).2.1 ≤
      (calculate_accuracy results validation).2.2.1 ∧
    (calculate_accuracy results validation).1 =
      (if (calculate_accuracy results validation).2.2.1 = 0 then 0
        else ((calculate_accuracy results validation).2.1 : ℚ) /
          ((calculate_accuracy results validation).2.2.1 : ℚ)) ∧
    0 ≤ (calculate_accuracy results validation).1 ∧
    (calculate_accuracy results validation).1 ≤ 1 ∧
    (parallel_calculate_accuracy presults).total = presults.length ∧
    (parallel_calculate_accuracy presults).correct =
      presults.countP (fun r => r.predicted == r.expected) ∧
    (parallel_calculate_accuracy presults).accuracy =
      (if presults.length = 0 then 0
        else ((parallel_calculate_accuracy presults).correct : ℚ) /
          (presults.length : ℚ) * 100) ∧
    0 ≤ (parallel_calculate_accuracy presults).accuracy ∧
    (parallel_calculate_accuracy presults).accuracy ≤ 100 := by
  obtain ⟨hcor, htot⟩ := accFold_counts validation results 0 0 []
  have htot' : (calculate_accuracy results validation).2.2.1 =
      results.countP (countsForAccuracy validation) := by
    simpa [calculate_accuracy] using htot
  have hcor' : (calculate_accuracy results validation).2.1 =
      results.countP (resultIsCorrect validation) := by
    simpa [calculate_accuracy] using hcor
  have hmono : results.countP (resultIsCorrect validation) ≤
      results.countP (countsForAccuracy validation) := by
    apply List.countP_mono_left
    intro r _ hr
    simp only [resultIsCorrect] at hr
    rcases hcl : r.classification with _ | p <;> rw [hcl] at hr
    · cases hr
    · rcases hexp : expectedFor validation r.file with _ | e <;> rw [hexp] at hr
      · cases hr
      · simp only [Bool.and_eq_true, decide_eq_true_eq] at hr
        simp [countsForAccuracy, hcl, hexp, hr.1]
  have hle : (calculate_accuracy results validation).2.1 ≤
      (calculate_accuracy results validation).2.2.1 := by
    rw [htot', hcor']
    exact hmono
  have hacc : (calculate_accuracy results validation).1 =
      (if (calculate_accuracy results validation).2.2.1 = 0 then 0
        else ((calculate_accuracy results validation).2.1 : ℚ) /
          ((calculate_accuracy results validation).2.2.1 : ℚ)) := by
    simp only [calculate_accuracy]
    rcases Nat.eq_zero_or_pos (results.foldl (accStep validation) (0, 0, [])).2.1
      with hz | hpos
    · simp [hz]
    · simp [hpos, Nat.pos_iff_ne_zero.mp hpos, Nat.not_eq_zero_of_lt hpos]
  have haccnn : 0 ≤ (calculate_accuracy results validation).1 := by
    rw [hacc]
    split
    · exact le_refl 0
    · positivity
  have hacc1 : (calculate_accuracy results validation).1 ≤ 1 := by
    rw [hacc]
    split
    · norm_num
    · rename_i hne
      rw [div_le_one (by exact_mod_cast Nat.pos_of_ne_zero hne)]
      exact_mod_cast hle
  have hptot : (parallel_calculate_accuracy presults).total = presults.length := rfl
  have hpcor : (parallel_calculate_accuracy presults).correct =
      presults.countP (fun r => r.predicted == r.expected) := by
    simp [parallel_calculate_accuracy, List.countP_eq_length_filter]
  have hpcorle : (parallel_calculate_accuracy presults).correct ≤
      presults.length := by
    rw [hpcor]
    exact List.countP_le_length _
  have hpacc : (parallel_calculate_accuracy presults).accuracy =
      (if presults.length = 0 then 0
        else ((parallel_calculate_accuracy presults).correct : ℚ) /
          (presults.length : ℚ) * 100) := by
    simp only [parallel_calculate_accuracy]
    rcases Nat.eq_zero_or_pos presults.length with hz | hpos
    · simp [hz]
    · simp [hpos, Nat.pos_iff_ne_zero.mp hpos, Nat.not_eq_zero_of_lt hpos]
  have hpaccnn : 0 ≤ (parallel_calculate_accuracy presults).accuracy := by
    rw [hpacc]
    split
    · exact le_refl 0
    · positivity
  have hpacc100 : (parallel_calculate_accuracy presults).accuracy ≤ 100 := by
    rw [hpacc]
    split
    · norm_num
    · rename_i hne
      have hdiv : ((parallel_calculate_accuracy presults).correct : ℚ) /
          (presults.length : ℚ) ≤ 1 := by
        rw [div_le_one (by exact_mod_cast Nat.pos_of_ne_zero hne)]
        exact_mod_cast hpcorle
      nlinarith
  exact ⟨htot', hcor', hle, hacc, haccnn, hacc1, hptot, hpcor, hpacc,
    hpaccnn, hpacc100⟩

/-! ## Aggregator lemmas (claim C6) -/

/-- Dictionary lookup with default 0 (predictions.get(p, 0)). -/
def lookupCount : List (String × ℕ) → String → ℕ
  | [], _ => 0
  | (k, c) :: rest, p => if k = p then c else lookupCount rest p

theorem lookupCount_bump_same (acc : List (String × ℕ)) (p : String) :
    lookupCount (bumpTally acc p) p = lookupCount acc p + 1 := by
  induction acc with
  | nil => simp [bumpTally, lookupCount]
  | cons kc rest ih =>
    obtain ⟨k, c⟩ := kc
    by_cases hk : k = p
    · subst hk
      simp [bumpTally, lookupCount]
    · simp [bumpTally, lookupCount, hk, ih]

theorem lookupCount_bump_other (acc : List (String × ℕ)) (p q : String)
    (hq : q ≠ p) :
    lookupCount (bumpTally acc p) q = lookupCount acc q := by
  have hpq : p ≠ q := Ne.symm hq
  induction acc with
  | nil => simp [bumpTally, lookupCount, hpq]
  | cons kc rest ih =>
    obtain ⟨k, c⟩ := kc
    by_cases hk : k = p
    · subst hk
      simp [bumpTally, lookupCount, hpq]
    · by_cases hkq : k = q <;> simp [bumpTally, lookupCount, hk, hkq, hq, ih]

/-- The tally fold adds, per key, the number of its occurrences. -/
theorem tallyFold_lookup (k : String) (hk : k ≠ "") :
    ∀ (preds : List String) (acc : List (String × ℕ)),
      lookupCount (preds.foldl
        (fun a p => if p = "" then a else bumpTally a p) acc) k =
      lookupCount acc k + preds.count k := by
  intro preds
  induction preds with
  | nil => intro acc; simp
  | cons p rest ih =>
    intro acc
    by_cases hp : p = ""
    · subst hp
      have : ("" : String) ≠ k := fun h => hk h.symm
      simp [ih, List.count_cons, this]
    · by_cases hpk : p = k
      · subst hpk
        simp [hp, ih, lookupCount_bump_same, List.count_cons]
        omega
      · have : ¬ (p == k) := by simpa using hpk
        simp [hp, ih, lookupCount_bump_other _ _ _ (fun h => hpk h.symm),
          List.count_cons, this]

/-- Counts stored in the predictions dictionary equal the occurrence
counts of their keys. -/
theorem tally_count (preds : List String) (k : String) (hk : k ≠ "") :
    lookupCount (tallyPredictions preds) k = preds.count k := by
  simpa [tallyPredictions, lookupCount] using tallyFold_lookup k hk preds []

/-- Keys of the dictionary after an update: unchanged when the key is
already present, the new key appended at the end otherwise. -/
theorem bumpTally_keys (acc : List (String × ℕ)) (p : String) :
    (bumpTally acc p).map Prod.fst =
      (if p ∈ acc.map Prod.fst then acc.map Prod.fst
        else acc.map Prod.fst ++ [p]) := by
  induction acc with
  | nil => simp [bumpTally]
  | cons kc rest ih =>
    obtain ⟨k, c⟩ := kc
    by_cases hk : k = p
    · subst hk
      simp [bumpTally]
    · by_cases hp : p ∈ rest.map Prod.fst <;>
        simp [bumpTally, hk, ih, hp, Ne.symm hk]

/-- In a dictionary with distinct keys, lookup returns each entry's
stored count. -/
theorem lookup_of_mem_nodupKeys :
    ∀ acc : List (String × ℕ), (acc.map Prod.fst).Nodup →
      ∀ kc ∈ acc, lookupCount acc kc.1 = kc.2 := by
  intro acc
  induction acc with
  | nil => simp
  | cons hd rest ih =>
    intro hnd kc hkc
    obtain ⟨k, c⟩ := hd
    simp only [List.map_cons, List.nodup_cons] at hnd
    rcases List.mem_cons.mp hkc with rfl | hkc
    · simp [lookupCount]
    · have hne : k ≠ kc.1 := by
        intro h
        exact hnd.1 (h ▸ List.mem_map_of_mem Prod.fst hkc)
      simp [lookupCount, hne, ih hnd.2 kc hkc]

/-- Updates preserve distinctness of the dictionary keys. -/
theorem bumpTally_nodupKeys (acc : List (String × ℕ)) (p : String)
    (h : (acc.map Prod.fst).Nodup) :
    ((bumpTally acc p).map Prod.fst).Nodup := by
  rw [bumpTally_keys]
  split
  · exact h
  · rename_i hp
    simp [List.nodup_append, h, hp]

/-- Every key of the updated dictionary is an old key or the new one. -/
theorem bumpTally_key_cases (acc : List (String × ℕ)) (p : String)
    (kc : String × ℕ) (h : kc ∈ bumpTally acc p) :
    kc.1 ∈ acc.map Prod.fst ∨ kc.1 = p := by
  have hmem := List.mem_map_of_mem Prod.fst h
  rw [bumpTally_keys] at hmem
  by_cases hp : p ∈ acc.map Prod.fst
  · rw [if_pos hp] at hmem
    exact Or.inl hmem
  · rw [if_neg hp] at hmem
    rcases List.mem_append.mp hmem with hm | hm
    · exact Or.inl hm
    · exact Or.inr (List.mem_singleton.mp hm)

/-- The predictions dictionary has distinct keys and no empty key. -/
theorem tally_keys_props (preds : List String) :
    ((tallyPredictions preds).map Prod.fst).Nodup ∧
      ∀ kc ∈ tallyPredictions preds, kc.1 ≠ "" := by
  suffices h : ∀ (ps : List String) (acc : List (String × ℕ)),
      (acc.map Prod.fst).Nodup → (∀ kc ∈ acc, kc.1 ≠ "") →
      (((ps.foldl (fun a p => if p = "" then a else bumpTally a p) acc).map
        Prod.fst).Nodup ∧
        ∀ kc ∈ ps.foldl (fun a p => if p = "" then a else bumpTally a p) acc,
          kc.1 ≠ "") by
    exact h preds [] (by simp) (by simp)
  intro ps
  induction ps with
  | nil => intro acc h1 h2; exact ⟨h1, h2⟩
  | cons p rest ih =>
    intro acc h1 h2
    by_cases hp : p = ""
    · simpa [hp] using ih acc h1 h2
    · have hnew : ∀ kc ∈ bumpTally acc p, kc.1 ≠ "" := by
        intro kc hkc
        rcases bumpTally_key_cases acc p kc hkc with hm | hm
        · obtain ⟨kc', hkc', hfst⟩ := List.mem_map.mp hm
          exact hfst ▸ h2 kc' hkc'
        · rw [hm]
          exact hp
      simpa [hp] using ih (bumpTally acc p) (bumpTally_nodupKeys acc p h1) hnew

/-- A key present in the dictionary carries its looked-up count as an
actual entry. -/
theorem lookup_mem_of_mem_keys :
    ∀ (acc : List (String × ℕ)) (l : String), l ∈ acc.map Prod.fst →
      (l, lookupCount acc l) ∈ acc := by
  intro acc
  induction acc with
  | nil => simp
  | cons hd rest ih =>
    intro l hl
    obtain ⟨k, c⟩ := hd
    by_cases hk : k = l
    · subst hk
      simp [lookupCount]
    · have : l ∈ rest.map Prod.fst := by
        rcases List.mem_cons.mp hl with h | h
        · exact absurd h.symm hk
        · exact h
      have hmem := ih l this
      simp only [lookupCount, hk, if_false]
      exact List.mem_cons_of_mem _ hmem

/-- The dictionary keys are exactly the distinct non-empty predictions
in first-encounter order. -/
theorem tally_keys_order (preds : List String) :
    (tallyPredictions preds).map Prod.fst =
      firstOccs (preds.filter (fun p => !(p == ""))) := by
  suffices h : ∀ (ps : List String) (acc : List (String × ℕ)),
      ((ps.foldl (fun a p => if p = "" then a else bumpTally a p) acc).map
        Prod.fst) =
      (ps.filter (fun p => !(p == ""))).foldl
        (fun a x => if x ∈ a then a else a ++ [x]) (acc.map Prod.fst) by
    simpa [tallyPredictions, firstOccs] using h preds []
  intro ps
  induction ps with
  | nil => intro acc; simp
  | cons p rest ih =>
    intro acc
    by_cases hp : p = ""
    · simp [hp, ih acc]
    · have hpb : (!(p == "")) = true := by simpa using hp
      simp only [List.foldl_cons, List.filter_cons, hpb, if_pos, hp, if_false,
        if_true]
      rw [ih (bumpTally acc p), bumpTally_keys]

/-- Membership in the first-encounter fold. -/
theorem firstOccsFold_mem :
    ∀ (l : List String) (acc : List String) (x : String),
      x ∈ l.foldl (fun a y => if y ∈ a then a else a ++ [y]) acc ↔
        x ∈ acc ∨ x ∈ l := by
  intro l
  induction l with
  | nil => intro acc x; simp
  | cons y rest ih =>
    intro acc x
    by_cases hy : y ∈ acc
    · rw [List.foldl_cons, if_pos hy, ih]
      constructor
      · rintro (h | h)
        · exact Or.inl h
        · exact Or.inr (List.mem_cons_of_mem _ h)
      · rintro (h | h)
        · exact Or.inl h
        · rcases List.mem_cons.mp h with rfl | h
          · exact Or.inl hy
          · exact Or.inr h
    · rw [List.foldl_cons, if_neg hy, ih]
      simp only [List.mem_append, List.mem_singleton, List.mem_cons]
      tauto

/-- Python max over hd :: tl with the count as key: the result is an
element whose count bounds every count, and every element strictly
before it in the list has a strictly smaller count (first maximal). -/
theorem pyMaxBySnd_spec :
    ∀ (tl : List (String × ℕ)) (hd : String × ℕ),
      ∃ l1 l2, hd :: tl = l1 ++ (pyMaxBySnd hd tl) :: l2 ∧
        (∀ p ∈ l1, p.2 < (pyMaxBySnd hd tl).2) ∧
        (∀ p ∈ hd :: tl, p.2 ≤ (pyMaxBySnd hd tl).2) := by
  intro tl
  induction tl with
  | nil =>
    intro hd
    exact ⟨[], [], by simp [pyMaxBySnd], by simp, by simp [pyMaxBySnd]⟩
  | cons q tl ih =>
    intro hd
    by_cases hq : hd.2 < q.2
    · have hunfold : pyMaxBySnd hd (q :: tl) = pyMaxBySnd q tl := by
        simp [pyMaxBySnd, hq]
      obtain ⟨l1, l2, heq, hlt, hle⟩ := ih q
      refine ⟨hd :: l1, l2, ?_, ?_, ?_⟩
      · rw [hunfold, List.cons_append, ← heq]
      · intro p hp
        rw [hunfold]
        rcases List.mem_cons.mp hp with rfl | hp
        · exact lt_of_lt_of_le hq (hle q (List.mem_cons_self q tl))
        · exact hlt p hp
      · intro p hp
        rw [hunfold]
        rcases List.mem_cons.mp hp with rfl | hp
        · exact le_of_lt (lt_of_lt_of_le hq (hle q (List.mem_cons_self q tl)))
        · exact hle p hp
    · have hunfold : pyMaxBySnd hd (q :: tl) = pyMaxBySnd hd tl := by
        simp [pyMaxBySnd, hq]
      obtain ⟨l1, l2, heq, hlt, hle⟩ := ih hd
      have hqle : q.2 ≤ hd.2 := Nat.le_of_not_lt hq
      cases l1 with
      | nil =>
        simp only [List.nil_append, List.cons.injEq] at heq
        obtain ⟨hres, hl2⟩ := heq
        refine ⟨[], q :: tl, ?_, by simp, ?_⟩
        · rw [hunfold, ← hres]
          simp
        · intro p hp
          rw [hunfold, ← hres]
          rcases List.mem_cons.mp hp with rfl | hp
          · exact le_refl _
          · rcases List.mem_cons.mp hp with rfl | hp
            · exact hqle
            · have := hle p (List.mem_cons_of_mem hd hp)
              rw [← hres] at this
              exact this
      | cons a l1' =>
        simp only [List.cons_append, List.cons.injEq] at heq
        obtain ⟨hda, htl⟩ := heq
        have hhdlt : hd.2 < (pyMaxBySnd hd tl).2 := by
          have := hlt a (List.mem_cons_self a l1')
          rw [← hda] at this
          exact this
        refine ⟨hd :: q :: l1', l2, ?_, ?_, ?_⟩
        · rw [hunfold]
          simp only [List.cons_append, List.cons.injEq]
          exact ⟨trivial, trivial, htl⟩
        · intro p hp
          rw [hunfold]
          rcases List.mem_cons.mp hp with rfl | hp
          · exact hhdlt
          · rcases List.mem_cons.mp hp with rfl | hp
            · exact lt_of_le_of_lt hqle hhdlt
            · exact hlt p (List.mem_cons_of_mem a hp)
        · intro p hp
          rw [hunfold]
          rcases List.mem_cons.mp hp with rfl | hp
          · exact hle p (List.mem_cons_self p tl)
          · rcases List.mem_cons.mp hp with rfl | hp
            · exact le_trans hqle (hle hd (List.mem_cons_self hd tl))
            · exact hle p (List.mem_cons_of_mem hd hp)

/-- Claim C6: per filename, the aggregator's most common prediction is
the mode of the non-empty predicted labels tallied across runs — each
dictionary entry stores the occurrence count of its label, the chosen
entry's count bounds every count (over dictionary entries and over all
non-empty labels), every dictionary entry before the chosen one counts
strictly fewer (ties break toward the first-encountered label, the
dictionary keys being in first-encounter order) — and the consistency
percentage is the mode count divided by the number of runs, times 100. -/
theorem claim_C6 (preds : List String) (h : tallyPredictions preds ≠ []) :
    (∀ p ∈ tallyPredictions preds, p.1 ≠ "" ∧ p.2 = preds.count p.1) ∧
    (∀ p ∈ tallyPredictions preds, p.2 ≤ (most_common preds).2) ∧
    (∃ l1 l2, tallyPredictions preds = l1 ++ (most_common preds) :: l2 ∧
      ∀ p ∈ l1, p.2 < (most_common preds).2) ∧
    (tallyPredictions preds).map Prod.fst =
      firstOccs (preds.filter (fun p => !(p == ""))) ∧
    (∀ l, l ≠ "" → preds.count l ≤ (most_common preds).2) ∧
    consistency_percentage preds =
      ((most_common preds).2 : ℚ) / (preds.length : ℚ) * 100 := by
  obtain ⟨hnodup, hkeyne⟩ := tally_keys_props preds
  have horder := tally_keys_order preds
  obtain ⟨hd, tl, htal⟩ := List.exists_cons_of_ne_nil h
  have hmc : most_common preds = pyMaxBySnd hd tl := by
    simp [most_common, htal]
  obtain ⟨l1, l2, heq, hlt, hle⟩ := pyMaxBySnd_spec tl hd
  have hcount : ∀ p ∈ tallyPredictions preds, p.1 ≠ "" ∧ p.2 = preds.count p.1 := by
    intro p hp
    have hkn := hkeyne p hp
    have hlook := lookup_of_mem_nodupKeys (tallyPredictions preds) hnodup p hp
    have hcnt := tally_count preds p.1 hkn
    exact ⟨hkn, by rw [← hlook, hcnt]⟩
  have hmax : ∀ p ∈ tallyPredictions preds, p.2 ≤ (most_common preds).2 := by
    intro p hp
    rw [hmc]
    rw [htal] at hp
    exact hle p hp
  refine ⟨hcount, hmax, ?_, horder, ?_, ?_⟩
  · refine ⟨l1, l2, ?_, ?_⟩
    · rw [htal, hmc]
      exact heq
    · intro p hp
      rw [hmc]
      exact hlt p hp
  · intro l hl
    by_cases hmem : l ∈ (tallyPredictions preds).map Prod.fst
    · have hentry := lookup_mem_of_mem_keys (tallyPredictions preds) l hmem
      have hcnt := tally_count preds l hl
      have hb := hmax (l, lookupCount (tallyPredictions preds) l) hentry
      rw [hcnt] at hb
      exact hb
    · have hnotin : l ∉ preds := by
        intro hin
        apply hmem
        rw [horder]
        have : l ∈ preds.filter (fun p => !(p == "")) := by
          rw [List.mem_filter]
          exact ⟨hin, by simpa using hl⟩
        exact (firstOccsFold_mem (preds.filter (fun p => !(p == ""))) [] l).mpr
          (Or.inr this)
      rw [List.count_eq_zero.mpr hnotin]
      exact Nat.zero_le _
  · have hpne : preds ≠ [] := by
      intro h0
      rw [h0] at htal
      simp [tallyPredictions] at htal
    simp [consistency_percentage, hpne]

/-- Witness for claim C6: the spec scenario — predictions A, A, B for
one filename across three runs give most common prediction A with count
2 and consistency percentage 200/3 (66.7 percent). -/
theorem claim_C6_witness :
    tallyPredictions ["A", "A", "B"] ≠ [] ∧
    most_common ["A", "A", "B"] = ("A", 2) ∧
    consistency_percentage ["A", "A", "B"] = 200 / 3 ∧
    ∀ p ∈ tallyPredictions ["A", "A", "B"],
      p.2 ≤ (most_common ["A", "A", "B"]).2 := by
  refine ⟨by decide, by decide, ?_, (claim_C6 ["A", "A", "B"] (by decide)).2.1⟩
  have hm : most_common ["A", "A", "B"] = ("A", 2) := by decide
  simp [consistency_percentage, hm]
  norm_num

/-! ## Extractor lemmas (claim C5) -/

theorem tryMatchFC_starts (l w : List Char) (h : tryMatchFC l = some w) :
    startsWithCh fcMarker l = true := by
  by_cases hs : startsWithCh fcMarker l
  · exact hs
  · simp [tryMatchFC, hs] at h

/-- A successful regex search implies the marker literal occurs. -/
theorem reSearchFC_some_contains :
    ∀ l w, reSearchFC l = some w → containsCh fcMarker l = true := by
  intro l
  induction l with
  | nil =>
    intro w h
    have := tryMatchFC_starts [] w (by simpa [reSearchFC] using h)
    simpa [containsCh] using this
  | cons c cs ih =>
    intro w h
    simp only [reSearchFC] at h
    cases htm : tryMatchFC (c :: cs) with
    | some w' =>
      have := tryMatchFC_starts _ _ htm
      simp [containsCh, this]
    | none =>
      rw [htm] at h
      simp [containsCh, ih w h]

/-- When the marker is absent the regex fallback finds nothing. -/
theorem reSearchFC_none (l : List Char)
    (h : containsCh fcMarker l = false) : reSearchFC l = none := by
  cases hres : reSearchFC l with
  | none => rfl
  | some w =>
    rw [reSearchFC_some_contains l w hres] at h
    cases h

/-- Substring occurrence coincides with the split finding a position. -/
theorem containsCh_iff_findSplit (pat : List Char) :
    ∀ l, containsCh pat l = true ↔ (findSplitCh pat l).isSome := by
  intro l
  induction l with
  | nil => by_cases h : startsWithCh pat [] <;> simp [containsCh, findSplitCh, h]
  | cons c cs ih =>
    by_cases h : startsWithCh pat (c :: cs)
    · simp [containsCh, findSplitCh, h]
    · simp only [containsCh, findSplitCh, h, Bool.false_or, if_false]
      rw [ih]
      cases findSplitCh pat cs with
      | none => simp
      | some pr => simp

/-- Claim C5 (as stated, refuted): when the marker occurs twice on one
line the extractor truncates the label at the second occurrence instead
of returning the whole remainder of the line: on
"Final Classification: A Final Classification: B" it returns "A" where
the remainder-of-line reading gives "A Final Classification: B". -/
theorem claim_C5_counterexample :
    extract_classification
      "Final Classification: A Final Classification: B" = "A" ∧
    extract_classification_spec
      "Final Classification: A Final Classification: B" =
      "A Final Classification: B" ∧
    extract_classification
      "Final Classification: A Final Classification: B" ≠
      extract_classification_spec
        "Final Classification: A Final Classification: B" := by
  refine ⟨by decide, by decide, by decide⟩

/-- Claim C5 as amended: the extractor takes the text after the first
marker occurrence truncated at the next marker occurrence (if any) and
at the first newline, trimmed — which is exactly the remainder of the
line whenever the marker does not occur again — attempts the
regular-expression fallback when the literal is absent, and otherwise
returns the sentinel UNKNOWN; being a total function it never raises. -/
theorem claim_C5_amended (text : String) :
    (containsCh fcMarker (stripCh text.data) = false →
      extract_classification text = "UNKNOWN" ∧
      extract_classification_spec text = "UNKNOWN") ∧
    (∀ pre rest, findSplitCh fcMarker (stripCh text.data) = some (pre, rest) →
      containsCh fcMarker rest = false →
      extract_classification text = extract_classification_spec text ∧
      extract_classification text =
        String.mk (stripCh (rest.takeWhile (fun c => c ≠ '\n')))) := by
  constructor
  · intro hnc
    have hre := reSearchFC_none (stripCh text.data) hnc
    have hfs : findSplitCh fcMarker (stripCh text.data) = none := by
      cases hf : findSplitCh fcMarker (stripCh text.data) with
      | none => rfl
      | some pr =>
        have hcs : containsCh fcMarker (stripCh text.data) = true :=
          (containsCh_iff_findSplit _ _).mpr (by rw [hf]; rfl)
        rw [hcs] at hnc
        cases hnc
    constructor
    · simp [extract_classification, hnc, hre]
    · simp [extract_classification_spec, hfs, hre]
  · intro pre rest hfs hnc2
    have hc : containsCh fcMarker (stripCh text.data) = true :=
      (containsCh_iff_findSplit _ _).mpr (by rw [hfs]; rfl)
    have hfs2 : findSplitCh fcMarker rest = none := by
      cases hf : findSplitCh fcMarker rest with
      | none => rfl
      | some pr2 =>
        have hcs := (containsCh_iff_findSplit fcMarker rest).mpr
          (by rw [hf]; rfl)
        rw [hcs] at hnc2
        cases hnc2
    have hseg : pySplitSegment1 fcMarker (stripCh text.data) = some rest := by
      simp [pySplitSegment1, hfs, hfs2]
    constructor
    · simp [extract_classification, extract_classification_spec, hc, hseg, hfs]
    · simp [extract_classification, hc, hseg]

/-- Witness for claim C5: on a response with a single marker occurrence
the extractor agrees with the remainder-of-line reading and yields
INVOICE; with no marker it yields UNKNOWN. -/
theorem claim_C5_witness :
    extract_classification "blah\nFinal Classification: INVOICE\nrest" =
      extract_classification_spec
        "blah\nFinal Classification: INVOICE\nrest" ∧
    extract_classification "blah\nFinal Classification: INVOICE\nrest" =
      "INVOICE" ∧
    extract_classification "no marker here" = "UNKNOWN" := by
  have h2 := (claim_C5_amended "blah\nFinal Classification: INVOICE\nrest").2
    "blah\n".data " INVOICE\nrest".data (by decide) (by decide)
  have h1 := (claim_C5_amended "no marker here").1 (by decide)
  refine ⟨h2.1, ?_, h1.1⟩
  rw [h2.2]
  decide

/-! ## Governor lemmas (claim C9) -/

theorem countHolding_cons (p : TaskPhase) (l : List TaskPhase) :
    countHolding (p :: l) =
      countHolding l + (if p = TaskPhase.holding then 1 else 0) := by
  cases p <;> simp [countHolding]

theorem countHolding_replicate (n : ℕ) :
    countHolding (List.replicate n TaskPhase.notStarted) = 0 := by
  induction n with
  | zero => simp [countHolding]
  | succ n ih => simp [List.replicate_succ, countHolding, ih]

/-- Writing phase b over the i-th task (currently in phase a) shifts the
holder count by the difference of their holding contributions. -/
theorem countHolding_set (l : List TaskPhase) :
    ∀ (i : ℕ) (a b : TaskPhase), l.get? i = some a →
      countHolding (l.set i b) + (if a = TaskPhase.holding then 1 else 0) =
        countHolding l + (if b = TaskPhase.holding then 1 else 0) := by
  induction l with
  | nil => intro i a b h; simp at h
  | cons x xs ih =>
    intro i a b h
    cases i with
    | zero =>
      rw [List.get?_cons_zero] at h
      injection h with hx
      subst hx
      simp only [List.set_cons_zero, countHolding_cons]
      omega
    | succ i =>
      rw [List.get?_cons_succ] at h
      have := ih i a b h
      simp only [List.set_cons_succ, countHolding_cons]
      omega

/-- Invariant of the governor: held permits plus available permits equal
the semaphore capacity. -/
theorem govInvariant (cap n : ℕ) (s : GovState) (h : GovReachable cap n s) :
    countHolding s.tasks + s.avail = cap := by
  have h' : Relation.ReflTransGen GovStep (govInit cap n) s := h
  clear h
  induction h' with
  | refl => simp [govInit, countHolding_replicate]
  | tail hreach hstep ih =>
    cases hstep with
    | acquire i hi ha =>
      have hset := countHolding_set _ i TaskPhase.notStarted
        TaskPhase.holding hi
      simp at hset
      dsimp only
      omega
    | finish i k hi =>
      have hset := countHolding_set _ i TaskPhase.holding
        (TaskPhase.finished k) hi
      simp at hset
      dsimp only
      omega

/-- Claim C9: in every reachable state of the governed run — tasks
acquire a permit only when the counter is positive and release it on any
exit of the guarded body (success, failure or cancellation) — the number
of tasks holding a permit, i.e. of in-flight provider calls, never
exceeds the semaphore capacity max_concurrent. -/
theorem claim_C9 (cap n : ℕ) (s : GovState) (h : GovReachable cap n s) :
    countHolding s.tasks ≤ cap := by
  have := govInvariant cap n s h
  omega

/-- Witness for claim C9: capacity 2, three tasks, two acquisitions
performed — a concrete reachable state with both permits held. -/
theorem claim_C9_witness :
    GovReachable 2 3 ⟨0, [TaskPhase.holding, TaskPhase.holding,
      TaskPhase.notStarted]⟩ ∧
    countHolding [TaskPhase.holding, TaskPhase.holding,
      TaskPhase.notStarted] ≤ 2 := by
  have step1 : GovStep (govInit 2 3)
      ⟨1, [TaskPhase.holding, TaskPhase.notStarted, TaskPhase.notStarted]⟩ := by
    have := GovStep.acquire (govInit 2 3) 0 (by decide) (by decide)
    simpa [govInit] using this
  have step2 : GovStep
      ⟨1, [TaskPhase.holding, TaskPhase.notStarted, TaskPhase.notStarted]⟩
      ⟨0, [TaskPhase.holding, TaskPhase.holding, TaskPhase.notStarted]⟩ := by
    have := GovStep.acquire
      ⟨1, [TaskPhase.holding, TaskPhase.notStarted, TaskPhase.notStarted]⟩ 1
      (by decide) (by decide)
    simpa using this
  have hreach : GovReachable 2 3 ⟨0, [TaskPhase.holding, TaskPhase.holding,
      TaskPhase.notStarted]⟩ :=
    Relation.ReflTransGen.tail
      (Relation.ReflTransGen.tail Relation.ReflTransGen.refl step1) step2
  exact ⟨hreach, claim_C9 2 3 _ hreach⟩
